import Mathlib

/-!
Verification development for the TranscriptionTools transcript toolkit
(`src/tools/summary.ts`): the summarization pipeline (`summaryText`) and the
timestamped-transcript formatter (`formatTranscript`).

Shallow embedding conventions:
* JavaScript strings are modelled as `List Char`.
* JavaScript numbers are modelled as exact rationals (`ℚ`); the constants
  `0.7`, `0.3` of the source appear as `7/10`, `3/10`.
* `str.split(/\s+/).length` is modelled by `jsSplitWSLen` (counting the empty
  boundary pieces JavaScript produces), `str.trim()` by `jsTrim`,
  `arr.join(' ')` by `joinSep [' ']`, and the stable `Array.prototype.sort`
  by `List.insertionSort` over a total order carrying the original position
  as tie-break.
* All recursive text functions are written with structural recursion so that
  they evaluate on concrete inputs inside the kernel.
-/

/-- Sentence terminators recognised by the regex `[^.!?]+[.!?]+` of
`summaryText` (src/tools/summary.ts line 78). -/
def isTerm (c : Char) : Bool := c == '.' || c == '!' || c == '?'

/-- Whitespace as matched by the `\s` character class for the inputs the
tool processes (ASCII whitespace). -/
def isWS (c : Char) : Bool :=
  c == ' ' || c == '\t' || c == '\n' || c == '\r' || c == '\x0b' || c == '\x0c'

/-- One step of tokenisation into maximal non-whitespace runs.  `cur` is the
current partially-read token (reversed), `none` when between tokens. -/
def tokGo (cur : Option (List Char)) : List Char → List (List Char)
  | [] => match cur with
    | none => []
    | some w => [w.reverse]
  | c :: cs =>
    if isWS c then
      (match cur with
        | none => []
        | some w => [w.reverse]) ++ tokGo none cs
    else
      tokGo (some (c :: cur.getD [])) cs

/-- The whitespace-delimited words of a string (the maximal runs of
non-whitespace characters, in order).  This is the word multiset the spec's
token-preservation property is stated over, and also the non-empty pieces of
JavaScript `str.split(/\s+/)`. -/
def wsTokens (cs : List Char) : List (List Char) := tokGo none cs

/-- Count of maximal whitespace runs (`inRun` = currently inside one). -/
def wsRuns (inRun : Bool) : List Char → Nat
  | [] => 0
  | c :: cs =>
    if isWS c then (cond inRun 0 1) + wsRuns true cs
    else wsRuns false cs

/-- Model of JavaScript `str.split(/\s+/).length` — the `wordCount` measure
of `summaryText` (src/tools/summary.ts line 41) and the per-sentence word
measure (line 110).  A string with `k` maximal whitespace runs splits into
`k + 1` pieces (boundary pieces may be empty, e.g. `" a"` gives 2). -/
def jsSplitWSLen (cs : List Char) : Nat := wsRuns false cs + 1

/-- Model of JavaScript `str.trim()`. -/
def jsTrim (cs : List Char) : List Char :=
  ((cs.dropWhile isWS).reverse.dropWhile isWS).reverse

/-- Model of JavaScript `array.join(sep)`. -/
def joinSep (sep : List Char) : List (List Char) → List Char
  | [] => []
  | [x] => x
  | x :: y :: xs => x ++ sep ++ joinSep sep (y :: xs)

theorem wsTokens_nil : wsTokens [] = [] := rfl

/-- With a pending token, tokenisation always emits at least one token. -/
theorem tokGo_some_ne_nil (cs : List Char) (w : List Char) :
    tokGo (some w) cs ≠ [] := by
  induction cs generalizing w with
  | nil => simp [tokGo]
  | cons c cs ih =>
    by_cases hc : isWS c = true
    · simp [tokGo, hc]
    · simpa [tokGo, hc] using ih (c :: w)

/-- A string containing a non-whitespace character has at least one word. -/
theorem wsTokens_ne_nil {cs : List Char} {c : Char} (hc : c ∈ cs)
    (hw : isWS c = false) : wsTokens cs ≠ [] := by
  induction cs with
  | nil => cases hc
  | cons x t ih =>
    by_cases hx : isWS x = true
    · have hct : c ∈ t := by
        rcases List.mem_cons.mp hc with h | h
        · exact absurd (h ▸ hx) (by simp [hw])
        · exact h
      have := ih hct
      simp only [wsTokens] at this ⊢
      simp [tokGo, hx, this]
    · simp only [wsTokens, tokGo, hx, if_false]
      exact tokGo_some_ne_nil t _

theorem tokGo_all_ws {s : List Char} (hs : ∀ c ∈ s, isWS c = true) :
    tokGo none s = [] := by
  induction s with
  | nil => rfl
  | cons c t ih =>
    have hc := hs c (by simp)
    simp [tokGo, hc, ih (fun d hd => hs d (by simp [hd]))]

/-- Tokenising an all-whitespace string flushes just the pending token. -/
theorem tokGo_emit_of_all_ws (cur : Option (List Char)) {s : List Char}
    (hs : ∀ c ∈ s, isWS c = true) :
    tokGo cur s = (match cur with | none => [] | some w => [w.reverse]) := by
  cases s with
  | nil => rfl
  | cons c t =>
    have hc := hs c (by simp)
    have ht : ∀ d ∈ t, isWS d = true := fun d hd => hs d (by simp [hd])
    simp [tokGo, hc, tokGo_all_ws ht]

/-- An all-whitespace prefix does not change the words. -/
theorem wsTokens_ws_prefix {p : List Char} (hp : ∀ c ∈ p, isWS c = true)
    (ys : List Char) : wsTokens (p ++ ys) = wsTokens ys := by
  induction p with
  | nil => rfl
  | cons c t ih =>
    have hc := hp c (by simp)
    simp only [wsTokens, List.cons_append, tokGo, hc, if_true, List.nil_append]
    exact ih (fun d hd => hp d (by simp [hd]))

/-- An all-whitespace suffix does not change the words. -/
theorem tokGo_ws_suffix (cur : Option (List Char)) (xs : List Char)
    {s : List Char} (hs : ∀ c ∈ s, isWS c = true) :
    tokGo cur (xs ++ s) = tokGo cur xs := by
  induction xs generalizing cur with
  | nil => simpa [tokGo] using tokGo_emit_of_all_ws cur hs
  | cons c t ih =>
    by_cases hc : isWS c = true
    · simp [tokGo, hc, ih none]
    · simp [tokGo, hc, ih (some (c :: cur.getD []))]

/-- Splitting at a non-empty all-whitespace separator splits the words. -/
theorem tokGo_append_ws (cur : Option (List Char)) (xs : List Char)
    {sep : List Char} (hne : sep ≠ []) (hws : ∀ c ∈ sep, isWS c = true)
    (ys : List Char) :
    tokGo cur (xs ++ (sep ++ ys)) = tokGo cur xs ++ tokGo none ys := by
  induction xs generalizing cur with
  | nil =>
    cases sep with
    | nil => exact absurd rfl hne
    | cons c t =>
      have hc := hws c (by simp)
      have ht : ∀ d ∈ t, isWS d = true := fun d hd => hws d (by simp [hd])
      have hpre : tokGo none (t ++ ys) = tokGo none ys := wsTokens_ws_prefix ht ys
      cases cur <;> simp [tokGo, hc, hpre]
  | cons c t ih =>
    by_cases hc : isWS c = true
    · simp [tokGo, hc, ih none]
    · simp [tokGo, hc, ih (some (c :: cur.getD []))]

/-- Words of an append across a non-empty all-whitespace separator. -/
theorem wsTokens_append_ws (xs : List Char) {sep : List Char} (hne : sep ≠ [])
    (hws : ∀ c ∈ sep, isWS c = true) (ys : List Char) :
    wsTokens (xs ++ sep ++ ys) = wsTokens xs ++ wsTokens ys := by
  rw [List.append_assoc]
  exact tokGo_append_ws none xs hne hws ys

/-- Words of a single-space join: the words of the joined pieces. -/
theorem wsTokens_joinSep (L : List (List Char)) :
    wsTokens (joinSep [' '] L) = L.flatMap wsTokens := by
  induction L with
  | nil => rfl
  | cons x xs ih =>
    cases xs with
    | nil => simp [joinSep]
    | cons y ys =>
      rw [joinSep, List.flatMap_cons, ← ih,
        wsTokens_append_ws x (by simp) (by intro c hc; simp at hc; simp [hc, isWS])]

/-- Every string splits as whitespace, its trimmed core, whitespace. -/
theorem jsTrim_decomp (cs : List Char) :
    ∃ p s, (∀ c ∈ p, isWS c = true) ∧ (∀ c ∈ s, isWS c = true) ∧
      cs = p ++ jsTrim cs ++ s := by
  refine ⟨cs.takeWhile isWS, ((cs.dropWhile isWS).reverse.takeWhile isWS).reverse,
    fun c hc => List.mem_takeWhile_imp hc,
    fun c hc => List.mem_takeWhile_imp (List.mem_reverse.mp hc), ?_⟩
  conv_lhs => rw [← List.takeWhile_append_dropWhile (p := isWS) (l := cs)]
  rw [jsTrim, List.append_assoc]
  congr 1
  conv_lhs => rw [← List.reverse_reverse (cs.dropWhile isWS),
    ← List.takeWhile_append_dropWhile (p := isWS) (l := (cs.dropWhile isWS).reverse)]
  rw [List.reverse_append]

/-- Trimming does not change the words. -/
theorem wsTokens_jsTrim (cs : List Char) : wsTokens (jsTrim cs) = wsTokens cs := by
  obtain ⟨p, s, hp, hs, hdec⟩ := jsTrim_decomp cs
  conv_rhs => rw [hdec]
  rw [List.append_assoc, wsTokens_ws_prefix hp]
  exact (tokGo_ws_suffix none (jsTrim cs) hs).symm

/-- A string with a word is non-empty after trimming. -/
theorem jsTrim_ne_nil {cs : List Char} (h : wsTokens cs ≠ []) :
    jsTrim cs ≠ [] := by
  intro hnil
  exact h (by rw [← wsTokens_jsTrim, hnil, wsTokens_nil])

/-- The word count never undercounts the whitespace-delimited words. -/
theorem wsTokens_length_le (cs : List Char) :
    (wsTokens cs).length ≤ jsSplitWSLen cs := by
  have main : ∀ cs : List Char,
      (∀ w, (tokGo (some w) cs).length ≤ wsRuns false cs + 1) ∧
      (∀ b, (tokGo none cs).length ≤ wsRuns b cs + 1) := by
    intro cs
    induction cs with
    | nil => simp [tokGo, wsRuns]
    | cons c t ih =>
      by_cases hc : isWS c = true
      · constructor
        · intro w
          have h2 := ih.2 true
          simp only [tokGo, hc, if_true, wsRuns, List.length_append,
            List.length_cons, List.length_nil, Bool.cond_false]
          omega
        · intro b
          have h2 := ih.2 true
          simp only [tokGo, hc, if_true, wsRuns, List.nil_append]
          cases b <;> simp only [Bool.cond_true, Bool.cond_false] <;> omega
      · constructor
        · intro w
          simp only [tokGo, hc, if_false, wsRuns]
          exact ih.1 _
        · intro b
          simp only [tokGo, hc, if_false, wsRuns]
          exact ih.1 _
  exact (main cs).2 false

/-- One step of the sentence scanner modelling the global regex match
`textContent.match(/[^.!?]+[.!?]+/g)` of `summaryText`
(src/tools/summary.ts line 78).  `acc` holds the current candidate match
(reversed); `inT` records whether the candidate has entered its trailing
terminator run `[.!?]+`. -/
def sentGo (acc : List Char) (inT : Bool) : List Char → List (List Char)
  | [] => if inT then [acc.reverse] else []
  | c :: cs =>
    if isTerm c then
      if acc.isEmpty then sentGo [] false cs
      else sentGo (c :: acc) true cs
    else
      if inT then acc.reverse :: sentGo [c] false cs
      else sentGo (c :: acc) false cs

/-- The Sentence list of a document: all matches of `[^.!?]+[.!?]+`, in
order (`match` returns `null` for no match, modelled as the empty list). -/
def extractSentences (cs : List Char) : List (List Char) := sentGo [] false cs

/-- Scanner invariant: the input is the skipped leading terminator run
(only when no candidate is pending), then the concatenated matches, then a
terminator-free tail. -/
theorem sentGo_decomp (cs : List Char) :
    ∀ acc inT, (inT = true → acc ≠ []) →
      (inT = false → ∀ c ∈ acc, isTerm c = false) →
      ∃ tail, (∀ c ∈ tail, isTerm c = false) ∧
        acc.reverse ++ cs =
          (if inT = false ∧ acc.isEmpty then cs.takeWhile isTerm else []) ++
            (sentGo acc inT cs).flatten ++ tail := by
  induction cs with
  | nil =>
    intro acc inT hT hF
    cases inT with
    | true =>
      exact ⟨[], by simp, by simp [sentGo]⟩
    | false =>
      by_cases ha : acc.isEmpty
      · refine ⟨[], by simp, ?_⟩
        rw [List.isEmpty_iff] at ha
        simp [sentGo, ha]
      · refine ⟨acc.reverse, ?_, by simp [sentGo, ha]⟩
        intro c hc
        exact hF rfl c (List.mem_reverse.mp hc)
  | cons c cs ih =>
    intro acc inT hT hF
    by_cases hc : isTerm c = true
    · by_cases ha : acc.isEmpty
      · have hinT : inT = false := by
          cases inT with
          | true => exact absurd (List.isEmpty_iff.mp ha) (hT rfl)
          | false => rfl
        subst hinT
        rw [List.isEmpty_iff] at ha
        subst ha
        obtain ⟨tail, htail, heq⟩ := ih [] false (by simp) (by simp)
        refine ⟨tail, htail, ?_⟩
        simp only [List.isEmpty_nil, and_true, List.reverse_nil,
          List.nil_append, if_true] at heq ⊢
        simp only [sentGo, hc, if_true, List.isEmpty_nil, List.takeWhile_cons,
          List.cons_append]
        exact congrArg (fun l => c :: l) heq
      · obtain ⟨tail, htail, heq⟩ := ih (c :: acc) true
          (fun _ => by simp) (by simp)
        refine ⟨tail, htail, ?_⟩
        have hstep : sentGo acc inT (c :: cs) = sentGo (c :: acc) true cs := by
          cases inT with
          | true => simp [sentGo, hc, ha]
          | false => simp [sentGo, hc, ha]
        rw [hstep]
        simp only [List.isEmpty_cons, Bool.false_eq_true, and_false,
          if_false] at heq
        simp only [ha, and_false, Bool.false_eq_true, if_false,
          List.nil_append] at heq ⊢
        have : acc.reverse ++ (c :: cs) = (c :: acc).reverse ++ cs := by
          simp
        rw [this, heq]
    · cases inT with
      | true =>
        have hcf : isTerm c = false := by simpa using hc
        obtain ⟨tail, htail, heq⟩ := ih [c] false (by simp)
          (by intro _ d hd; rw [List.mem_singleton] at hd; exact hd ▸ hcf)
        refine ⟨tail, htail, ?_⟩
        have hstep : sentGo acc true (c :: cs) =
            acc.reverse :: sentGo [c] false cs := by
          simp [sentGo, hc]
        rw [hstep]
        have heq2 : c :: cs = (sentGo [c] false cs).flatten ++ tail := by
          simpa using heq
        rw [heq2]
        simp [List.append_assoc]
      | false =>
        obtain ⟨tail, htail, heq⟩ := ih (c :: acc) false (by simp)
          (by
            intro _ d hd
            rcases List.mem_cons.mp hd with h | h
            · simpa [h] using hc
            · exact hF rfl d h)
        refine ⟨tail, htail, ?_⟩
        have hstep : sentGo acc false (c :: cs) = sentGo (c :: acc) false cs := by
          simp [sentGo, hc]
        rw [hstep]
        simp only [List.isEmpty_cons, Bool.false_eq_true, and_false,
          if_false, List.nil_append] at heq
        by_cases ha : acc.isEmpty
        · rw [List.isEmpty_iff] at ha
          subst ha
          simp only [List.isEmpty_nil, and_true, List.reverse_nil,
            List.nil_append, if_true, List.takeWhile_cons, hc, if_false]
          simpa using heq
        · simp only [ha, and_false, if_false, List.nil_append] at heq ⊢
          have : acc.reverse ++ (c :: cs) = (c :: acc).reverse ++ cs := by simp
          rw [this]
          exact heq

/-- The Sentence list is a partition of the source text, up to a leading
run of terminator characters and a terminator-free suffix. -/
theorem extractSentences_decomp (cs : List Char) :
    ∃ tail, (∀ c ∈ tail, isTerm c = false) ∧
      cs = cs.takeWhile isTerm ++ (extractSentences cs).flatten ++ tail := by
  obtain ⟨tail, htail, heq⟩ := sentGo_decomp cs [] false (by simp) (by simp)
  exact ⟨tail, htail, by simpa [extractSentences] using heq⟩

/-- Every extracted Sentence contains a terminator character. -/
theorem extractSentences_mem_term {cs : List Char} {s : List Char}
    (hs : s ∈ extractSentences cs) : ∃ c ∈ s, isTerm c = true := by
  suffices main : ∀ cs acc inT, (inT = true → ∃ c ∈ acc, isTerm c = true) →
      ∀ s ∈ sentGo acc inT cs, ∃ c ∈ s, isTerm c = true by
    exact main cs [] false (by simp) s hs
  intro cs
  induction cs with
  | nil =>
    intro acc inT hT s hs
    cases inT with
    | true =>
      simp only [sentGo, if_true, List.mem_singleton] at hs
      obtain ⟨c, hc, hterm⟩ := hT rfl
      exact ⟨c, hs ▸ List.mem_reverse.mpr hc, hterm⟩
    | false => simp [sentGo] at hs
  | cons c cs ih =>
    intro acc inT hT s hs
    by_cases hc : isTerm c = true
    · by_cases ha : acc.isEmpty
      · have hstep : sentGo acc inT (c :: cs) = sentGo [] false cs := by
          cases inT with
          | true =>
            exact absurd (List.isEmpty_iff.mp ha)
              (by obtain ⟨d, hd, _⟩ := hT rfl; intro h; rw [h] at hd; cases hd)
          | false => simp [sentGo, hc, ha]
        rw [hstep] at hs
        exact ih [] false (by simp) s hs
      · have hstep : sentGo acc inT (c :: cs) = sentGo (c :: acc) true cs := by
          cases inT <;> simp [sentGo, hc, ha]
        rw [hstep] at hs
        exact ih (c :: acc) true (fun _ => ⟨c, by simp, hc⟩) s hs
    · cases inT with
      | true =>
        have hstep : sentGo acc true (c :: cs) =
            acc.reverse :: sentGo [c] false cs := by
          simp [sentGo, hc]
        rw [hstep] at hs
        rcases List.mem_cons.mp hs with h | h
        · obtain ⟨d, hd, hterm⟩ := hT rfl
          exact ⟨d, h ▸ List.mem_reverse.mpr hd, hterm⟩
        · exact ih [c] false (by simp [hc]) s h
      | false =>
        have hstep : sentGo acc false (c :: cs) = sentGo (c :: acc) false cs := by
          simp [sentGo, hc]
        rw [hstep] at hs
        exact ih (c :: acc) false (by simp) s hs

/-- Terminator characters are not whitespace. -/
theorem isTerm_not_ws {c : Char} (h : isTerm c = true) : isWS c = false := by
  simp only [isTerm, Bool.or_eq_true, beq_iff_eq] at h
  rcases h with (h | h) | h <;> subst h <;> decide

/-- Every extracted Sentence contributes at least one word. -/
theorem extractSentences_wsTokens_ne_nil {cs s : List Char}
    (hs : s ∈ extractSentences cs) : wsTokens s ≠ [] := by
  obtain ⟨c, hc, hterm⟩ := extractSentences_mem_term hs
  exact wsTokens_ne_nil hc (isTerm_not_ws hterm)

/-- The constraint types of `SummaryTextParams.constraint_type`
(src/tools/summary.ts line 10); `Option` models the nullable field. -/
inductive CType
  | time
  | chars
  | words
deriving DecidableEq

/-- JavaScript truthiness of the optional numeric `constraint_value`:
`null` and `0` are falsy, every other number is truthy. -/
def qTruthy : Option ℚ → Bool
  | none => false
  | some v => v != 0

/-- The `targetLength` resolution of `summaryText`
(src/tools/summary.ts lines 44–56): `constraint_value ? ... : ...`
with base rate 150 words/minute and 30 percent defaults. -/
def resolveTarget (ct : Option CType) (cv : Option ℚ)
    (wordCount contentLength : ℕ) : ℚ :=
  if ct = some CType.time then
    if qTruthy cv then cv.getD 0 * 150 / 60 else (wordCount : ℚ) * (3/10)
  else if ct = some CType.chars then
    if qTruthy cv then cv.getD 0 else (contentLength : ℚ) * (3/10)
  else if ct = some CType.words then
    if qTruthy cv then cv.getD 0 else (wordCount : ℚ) * (3/10)
  else (wordCount : ℚ) * (3/10)

/-- The accumulation unit chosen at line 104:
`constraint_type === 'chars' ? 'chars' : 'words'`. -/
def targetIsChars : Option CType → Bool
  | some CType.chars => true
  | _ => false

/-- `positionScore = 1 - (index / sentences.length)` (line 84). -/
def positionScore (i N : ℕ) : ℚ := 1 - (i : ℚ) / (N : ℚ)

/-- `lengthScore = Math.min(1, sentence.length / 100)` (line 85). -/
def lengthScore (s : List Char) : ℚ := min 1 ((s.length : ℚ) / 100)

/-- `score = positionScore * 0.7 + lengthScore * 0.3` (line 86). -/
def compositeScore (i N : ℕ) (s : List Char) : ℚ :=
  positionScore i N * (7/10) + lengthScore s * (3/10)

/-- A scored sentence as built at lines 81–87.  `idx` is the original
position — the map index of `sentences.map((sentence, index) => ...)`;
it is carried so that the stable JavaScript sort can be modelled as a
total order (see `rankRel`). -/
structure Scored where
  idx : ℕ
  sentence : List Char
  score : ℚ
deriving DecidableEq

/-- `sentences.map((sentence, index) => ({sentence, score}))` starting at
map index `i`, with `N = sentences.length`. -/
def scoreFrom (N : ℕ) : ℕ → List (List Char) → List Scored
  | _, [] => []
  | i, s :: rest => ⟨i, s, compositeScore i N s⟩ :: scoreFrom N (i + 1) rest

/-- The scored sentence list of `summaryText` (lines 81–87). -/
def scoreSentences (ss : List (List Char)) : List Scored :=
  scoreFrom ss.length 0 ss

/-- The iteration order of `sentenceScores.sort((a, b) => b.score - a.score)`
(line 90): score descending, and — since JavaScript sort is stable and the
input is in ascending `idx` order — ties broken by ascending original
index.  On distinct indices this total order has a unique sorted
permutation, which is exactly the stable-sort result. -/
abbrev rankRel (x y : Scored) : Prop :=
  y.score < x.score ∨ (x.score = y.score ∧ x.idx ≤ y.idx)

instance : IsTotal Scored rankRel where
  total x y := by
    rcases lt_trichotomy x.score y.score with h | h | h
    · exact Or.inr (Or.inl h)
    · rcases Nat.le_total x.idx y.idx with hi | hi
      · exact Or.inl (Or.inr ⟨h, hi⟩)
      · exact Or.inr (Or.inr ⟨h.symm, hi⟩)
    · exact Or.inl (Or.inl h)

instance : IsTrans Scored rankRel where
  trans a b c hab hbc := by
    rcases hab with h1 | ⟨e1, i1⟩ <;> rcases hbc with h2 | ⟨e2, i2⟩
    · exact Or.inl (h2.trans h1)
    · exact Or.inl (e2 ▸ h1)
    · exact Or.inl (e1 ▸ h2)
    · exact Or.inr ⟨e1.trans e2, i1.trans i2⟩

/-- The ranked iteration order of the selection loop. -/
def rankSentences (ss : List (List Char)) : List Scored :=
  List.insertionSort rankRel (scoreSentences ss)

/-- The per-sentence length measure of lines 108–110: characters for the
`chars` constraint, `sentence.split(/\s+/).length` otherwise. -/
def sentenceMeasure (tc : Bool) (s : List Char) : ℕ :=
  if tc then s.length else jsSplitWSLen s

/-- The greedy selection loop of lines 107–122: accumulate while the next
sentence still fits the target; if nothing is selected yet, take the
current (first) sentence anyway and stop; otherwise stop. -/
def greedyLoop (target : ℚ) (tc : Bool) :
    List Scored → List (List Char) → ℕ → List (List Char)
  | [], sel, _ => sel
  | item :: rest, sel, cur =>
    if ((cur + sentenceMeasure tc item.sentence : ℕ) : ℚ) ≤ target then
      greedyLoop target tc rest (sel ++ [item.sentence])
        (cur + sentenceMeasure tc item.sentence)
    else if sel.isEmpty then sel ++ [item.sentence]
    else sel

/-- `sentences.findIndex(s => s === sentence)` (lines 129–131), by text
equality.  JavaScript returns `-1` when the text is absent; this model
returns `ss.length` then — the absent case is unreachable in the pipeline
because every selected sentence is an element of `sentences`. -/
def findIndexOf (ss : List (List Char)) (s : List Char) : ℕ :=
  match ss with
  | [] => 0
  | x :: t => if x = s then 0 else findIndexOf t s + 1

/-- The Order Restorer (lines 129–137): map each selected sentence to its
`findIndex` position, sort those positions ascending
(`sort((a, b) => a - b)`), and map back through `sentences[index]`. -/
def restoreOrder (ss : List (List Char)) (sel : List (List Char)) :
    List (List Char) :=
  (List.insertionSort (fun a b => a ≤ b) (sel.map (findIndexOf ss))).map
    (fun i => ss.getD i [])

/-- Modelled from the spec (§7): the error taxonomy of the summarization
operation.  The core pipeline of `summaryText` itself has no failure path
(only the external content resolver and logger can throw), so the model
below never constructs these values; the type makes success-vs-failure
claims statable. -/
inductive SummaryError
  | inputResolution
  | malformedInput
deriving DecidableEq

/-- The summarization pipeline of `summaryText` (src/tools/summary.ts
lines 40–163) on resolved text content: word/char counts, target
resolution, sentence extraction, scoring, ranked greedy selection, order
restoration, and the final `join(' ').trim()`. -/
def summaryCore (cs : List Char) (ct : Option CType) (cv : Option ℚ) :
    Except SummaryError (List Char) :=
  let contentLength := cs.length
  let wordCount := jsSplitWSLen cs
  let targetLength := resolveTarget ct cv wordCount contentLength
  let sentences := extractSentences cs
  let sel := greedyLoop targetLength (targetIsChars ct)
    (rankSentences sentences) [] 0
  Except.ok (jsTrim (joinSep [' '] (restoreOrder sentences sel)))

/-- A parsed transcript segment of `formatTranscript`
(src/tools/summary.ts line 201): absolute second offset and text. -/
structure Segment where
  time : ℕ
  text : List Char
deriving DecidableEq

/-- The inline-join branch (Rule 3, lines 252–271) of `formatTranscript`
with its punctuation/capitalisation sub-branches, exactly as written:
every sub-branch appends a single space and the segment text. -/
def joinCase3 (acc : List Char) (segText : List Char) : List Char :=
  if (match acc.getLast? with
      | some c => isTerm c
      | none => false) then
    acc ++ ' ' :: segText
  else if acc.getLast? == some ',' || acc.getLast? == some ';' ||
      acc.getLast? == some ':' then
    acc ++ ' ' :: segText
  else if (match segText.head? with
      | some c => decide ('a' ≤ c) && decide (c ≤ 'z')
      | none => false) then
    acc ++ ' ' :: segText
  else acc ++ ' ' :: segText

/-- One assembler step for a non-first segment (lines 242–272): paragraph
break, line break, or inline join, chosen from the time gap. -/
def assembleStep (pg lg : ℚ) (lastTime : ℕ) (acc : List Char)
    (seg : Segment) : List Char :=
  if (((seg.time : ℤ) - (lastTime : ℤ) : ℤ) : ℚ) > pg then
    acc ++ '\n' :: '\n' :: seg.text
  else if (((seg.time : ℤ) - (lastTime : ℤ) : ℤ) : ℚ) > lg then
    acc ++ '\n' :: seg.text
  else joinCase3 acc seg.text

/-- The assembler loop of lines 235–276 after the first segment;
`lastTime` is always the previously processed segment's time. -/
def assembleGo (pg lg : ℚ) : ℕ → List Char → List Segment → List Char
  | _, acc, [] => acc
  | lastTime, acc, seg :: rest =>
    assembleGo pg lg seg.time (assembleStep pg lg lastTime acc seg) rest

/-- The Gap Classifier + Text Assembler of `formatTranscript`
(lines 231–276): first segment verbatim with no leading break, later
segments appended with a separator chosen from the time gap. -/
def assemble (pg lg : ℚ) : List Segment → List Char
  | [] => []
  | s0 :: rest => assembleGo pg lg s0.time s0.text rest

/-- Segment formatting with `formatTranscript`'s default thresholds
`paragraph_gap = 8`, `line_gap = 4` (lines 190–191). -/
def formatSegments (segs : List Segment) (pg : ℚ := 8) (lg : ℚ := 4) :
    List Char :=
  assemble pg lg segs

/-- The separator the spec's Gap Classifier assigns to a gap: blank line
above `paragraph_gap`, line break above `line_gap`, single space below. -/
def gapSep (pg lg : ℚ) (gap : ℤ) : List Char :=
  if (gap : ℚ) > pg then ['\n', '\n']
  else if (gap : ℚ) > lg then ['\n']
  else [' ']

/-- Spec-worded tail assembly: every subsequent segment contributes the
separator for its gap to the previous segment's time, then its text. -/
def assembleTail (pg lg : ℚ) : ℕ → List Segment → List Char
  | _, [] => []
  | t, seg :: rest =>
    gapSep pg lg ((seg.time : ℤ) - (t : ℤ)) ++ seg.text ++
      assembleTail pg lg seg.time rest

/-- Simplified assembler step, following the spec's description of the
inline-join case as an unconditional single-space join. -/
def assembleStepSimple (pg lg : ℚ) (lastTime : ℕ) (acc : List Char)
    (seg : Segment) : List Char :=
  if (((seg.time : ℤ) - (lastTime : ℤ) : ℤ) : ℚ) > pg then
    acc ++ '\n' :: '\n' :: seg.text
  else if (((seg.time : ℤ) - (lastTime : ℤ) : ℤ) : ℚ) > lg then
    acc ++ '\n' :: seg.text
  else acc ++ ' ' :: seg.text

/-- Loop of the simplified assembler. -/
def assembleSimpleGo (pg lg : ℚ) : ℕ → List Char → List Segment → List Char
  | _, acc, [] => acc
  | lastTime, acc, seg :: rest =>
    assembleSimpleGo pg lg seg.time
      (assembleStepSimple pg lg lastTime acc seg) rest

/-- The simplified Text Assembler with the collapsed inline-join case. -/
def assembleSimple (pg lg : ℚ) : List Segment → List Char
  | [] => []
  | s0 :: rest => assembleSimpleGo pg lg s0.time s0.text rest

/-- All four punctuation/capitalisation sub-branches of the inline-join
case produce the same single-space join. -/
theorem joinCase3_eq (acc segText : List Char) :
    joinCase3 acc segText = acc ++ ' ' :: segText := by
  unfold joinCase3
  split_ifs <;> rfl

theorem assembleStep_eq_simple (pg lg : ℚ) (t : ℕ) (acc : List Char)
    (seg : Segment) :
    assembleStep pg lg t acc seg = assembleStepSimple pg lg t acc seg := by
  unfold assembleStep assembleStepSimple
  split_ifs <;> simp [joinCase3_eq]

/-- Each assembler step appends the gap separator and the segment text. -/
theorem assembleStep_eq_sep (pg lg : ℚ) (t : ℕ) (acc : List Char)
    (seg : Segment) :
    assembleStep pg lg t acc seg =
      acc ++ gapSep pg lg ((seg.time : ℤ) - (t : ℤ)) ++ seg.text := by
  unfold assembleStep gapSep
  split_ifs <;> simp [joinCase3_eq]

/-- The assembler loop is the accumulator followed by the tail assembly. -/
theorem assembleGo_eq (pg lg : ℚ) (rest : List Segment) :
    ∀ (t : ℕ) (acc : List Char),
      assembleGo pg lg t acc rest = acc ++ assembleTail pg lg t rest := by
  induction rest with
  | nil => intro t acc; simp [assembleGo, assembleTail]
  | cons seg rest ih =>
    intro t acc
    rw [assembleGo, ih, assembleStep_eq_sep, assembleTail]
    simp [List.append_assoc]

/-- The gap separator is a non-empty all-whitespace string. -/
theorem gapSep_ws (pg lg : ℚ) (gap : ℤ) :
    gapSep pg lg gap ≠ [] ∧ ∀ c ∈ gapSep pg lg gap, isWS c = true := by
  unfold gapSep
  split_ifs <;> exact ⟨by simp, by intro c hc; fin_cases hc <;> decide⟩

/-- `wsTokens_append_ws` with the separator association used below. -/
theorem wsTokens_split (xs : List Char) {sep : List Char} (hne : sep ≠ [])
    (hws : ∀ c ∈ sep, isWS c = true) (ys : List Char) :
    wsTokens (xs ++ (sep ++ ys)) = wsTokens xs ++ wsTokens ys :=
  tokGo_append_ws none xs hne hws ys

/-- Words of the tail assembly: the words of each segment text. -/
theorem wsTokens_assembleTail (pg lg : ℚ) (rest : List Segment) :
    ∀ (t : ℕ) (xs : List Char),
      wsTokens (xs ++ assembleTail pg lg t rest) =
        wsTokens xs ++ rest.flatMap (fun seg => wsTokens seg.text) := by
  induction rest with
  | nil => intro t xs; simp [assembleTail]
  | cons seg rest ih =>
    intro t xs
    obtain ⟨hne, hws⟩ := gapSep_ws pg lg ((seg.time : ℤ) - (t : ℤ))
    rw [assembleTail, List.flatMap_cons, show
      xs ++ (gapSep pg lg ((seg.time : ℤ) - (t : ℤ)) ++ seg.text ++
        assembleTail pg lg seg.time rest) =
      xs ++ (gapSep pg lg ((seg.time : ℤ) - (t : ℤ)) ++ (seg.text ++
        assembleTail pg lg seg.time rest)) by simp [List.append_assoc]]
    rw [wsTokens_split xs hne hws, ih seg.time seg.text]

/-- The selection result of `summaryText` before order restoration. -/
def selectedOf (cs : List Char) (ct : Option CType) (cv : Option ℚ) :
    List (List Char) :=
  greedyLoop (resolveTarget ct cv (jsSplitWSLen cs) cs.length)
    (targetIsChars ct) (rankSentences (extractSentences cs)) [] 0

/-- `summaryCore` spelled out through `selectedOf`. -/
theorem summaryCore_eq (cs : List Char) (ct : Option CType) (cv : Option ℚ) :
    summaryCore cs ct cv =
      Except.ok (jsTrim (joinSep [' ']
        (restoreOrder (extractSentences cs) (selectedOf cs ct cv)))) := rfl

theorem scoreFrom_length (N : ℕ) (ss : List (List Char)) :
    ∀ i, (scoreFrom N i ss).length = ss.length := by
  induction ss with
  | nil => intro i; rfl
  | cons s rest ih => intro i; simp [scoreFrom, ih]

theorem scoreFrom_mem {N : ℕ} {ss : List (List Char)} {x : Scored} :
    ∀ {i}, x ∈ scoreFrom N i ss → x.sentence ∈ ss := by
  induction ss with
  | nil => intro i h; cases h
  | cons s rest ih =>
    intro i h
    rcases List.mem_cons.mp h with h | h
    · subst h; simp
    · exact List.mem_cons_of_mem _ (ih h)

theorem scoreFrom_getD (N : ℕ) (ss : List (List Char)) :
    ∀ i j, j < ss.length →
      (scoreFrom N i ss).getD j ⟨0, [], 0⟩ =
        ⟨i + j, ss.getD j [], compositeScore (i + j) N (ss.getD j [])⟩ := by
  induction ss with
  | nil => intro i j h; cases h
  | cons s rest ih =>
    intro i j h
    cases j with
    | zero => simp [scoreFrom]
    | succ j =>
      have hj : j < rest.length := by simpa using h
      have heq := ih (i + 1) j hj
      simp only [scoreFrom, List.getD_cons_succ, heq]
      rw [show i + (j + 1) = i + 1 + j by omega]

/-- Every item of the ranked list is a scored sentence of the document. -/
theorem rankSentences_mem {ss : List (List Char)} {x : Scored}
    (h : x ∈ rankSentences ss) : x.sentence ∈ ss :=
  scoreFrom_mem ((List.perm_insertionSort rankRel (scoreSentences ss)).mem_iff.mp h)

theorem rankSentences_length (ss : List (List Char)) :
    (rankSentences ss).length = ss.length := by
  unfold rankSentences
  rw [(List.perm_insertionSort rankRel (scoreSentences ss)).length_eq]
  exact scoreFrom_length ss.length ss 0

/-- The greedy loop never returns an empty selection unless it started
empty on an empty candidate list. -/
theorem greedyLoop_ne_nil (target : ℚ) (tc : Bool) :
    ∀ (l : List Scored) (sel : List (List Char)) (cur : ℕ),
      (sel = [] → l ≠ []) → greedyLoop target tc l sel cur ≠ [] := by
  intro l
  induction l with
  | nil =>
    intro sel cur h
    simp only [greedyLoop]
    intro hsel
    exact h hsel rfl
  | cons item rest ih =>
    intro sel cur h
    rw [greedyLoop]
    split
    · exact ih (sel ++ [item.sentence]) _ (by simp)
    · split
      · simp
      · intro hsel
        rename_i hempty
        rw [hsel] at hempty
        simp at hempty

/-- Everything the greedy loop returns is an initial selection element or
the text of a candidate. -/
theorem greedyLoop_mem (target : ℚ) (tc : Bool) :
    ∀ (l : List Scored) (sel : List (List Char)) (cur : ℕ)
      {x : List Char}, x ∈ greedyLoop target tc l sel cur →
      x ∈ sel ∨ ∃ it ∈ l, x = it.sentence := by
  intro l
  induction l with
  | nil =>
    intro sel cur x h
    exact Or.inl h
  | cons item rest ih =>
    intro sel cur x h
    rw [greedyLoop] at h
    split at h
    · rcases ih _ _ h with hs | ⟨it, hit, hx⟩
      · rcases List.mem_append.mp hs with hs | hs
        · exact Or.inl hs
        · exact Or.inr ⟨item, by simp, by simpa using hs⟩
      · exact Or.inr ⟨it, List.mem_cons_of_mem _ hit, hx⟩
    · split at h
      · rcases List.mem_append.mp h with hs | hs
        · exact Or.inl hs
        · exact Or.inr ⟨item, by simp, by simpa using hs⟩
      · exact Or.inl h

/-- When selection starts non-empty within budget, the selected measures
sum to at most the target. -/
theorem greedyLoop_sum_le (target : ℚ) (tc : Bool) :
    ∀ (l : List Scored) (sel : List (List Char)) (cur : ℕ),
      ((cur : ℚ) ≤ target) →
      cur = (sel.map (sentenceMeasure tc)).sum → sel ≠ [] →
      (((greedyLoop target tc l sel cur).map (sentenceMeasure tc)).sum : ℚ)
        ≤ target := by
  intro l
  induction l with
  | nil =>
    intro sel cur hle hsum _
    simpa [greedyLoop, ← hsum] using hle
  | cons item rest ih =>
    intro sel cur hle hsum hne
    rw [greedyLoop]
    split
    · rename_i hfit
      refine ih (sel ++ [item.sentence]) _ (by exact_mod_cast hfit) ?_ (by simp)
      simp [hsum]
    · split
      · rename_i hempty
        rw [List.isEmpty_iff] at hempty
        exact absurd hempty hne
      · simpa [← hsum] using hle

theorem findIndexOf_lt_length {ss : List (List Char)} {s : List Char}
    (h : s ∈ ss) : findIndexOf ss s < ss.length := by
  induction ss with
  | nil => cases h
  | cons x t ih =>
    rw [findIndexOf]
    split
    · simp
    · rename_i hxs
      have hst : s ∈ t := by
        rcases List.mem_cons.mp h with h | h
        · exact absurd h.symm hxs
        · exact h
      simpa using ih hst

theorem getD_findIndexOf {ss : List (List Char)} {s : List Char}
    (h : s ∈ ss) : ss.getD (findIndexOf ss s) [] = s := by
  induction ss with
  | nil => cases h
  | cons x t ih =>
    rw [findIndexOf]
    split
    · rename_i hxs
      simpa using hxs
    · rename_i hxs
      have hst : s ∈ t := by
        rcases List.mem_cons.mp h with h | h
        · exact absurd h.symm hxs
        · exact h
      simpa using ih hst

/-- On a duplicate-free list, `findIndexOf` inverts indexing. -/
theorem findIndexOf_getD_of_nodup {ss : List (List Char)} (hnd : ss.Nodup) :
    ∀ {i}, i < ss.length → findIndexOf ss (ss.getD i []) = i := by
  induction ss with
  | nil => intro i h; cases h
  | cons x t ih =>
    intro i h
    cases i with
    | zero => simp [findIndexOf]
    | succ i =>
      have hit : i < t.length := by simpa using h
      have hmem : t.getD i [] ∈ t := by
        rw [List.getD_eq_getElem t [] hit]
        exact List.getElem_mem hit
      have hx : x ∉ t := (List.nodup_cons.mp hnd).1
      have hne : x ≠ t.getD i [] := fun he => hx (he ▸ hmem)
      simp only [List.getD_cons_succ, findIndexOf, hne, if_false]
      rw [ih (List.nodup_cons.mp hnd).2 hit]

/-- The Order Restorer returns a permutation of the selected texts
whenever each selected text occurs among the sentences. -/
theorem restoreOrder_perm {ss : List (List Char)} {sel : List (List Char)}
    (h : ∀ s ∈ sel, s ∈ ss) : (restoreOrder ss sel).Perm sel := by
  unfold restoreOrder
  have h1 := (List.perm_insertionSort (fun a b => a ≤ b)
    (sel.map (findIndexOf ss))).map (fun i => ss.getD i [])
  refine h1.trans ?_
  rw [List.map_map]
  have : ∀ s ∈ sel, ((fun i => ss.getD i []) ∘ findIndexOf ss) s = id s := by
    intro s hs
    exact getD_findIndexOf (h s hs)
  rw [List.map_congr_left this, List.map_id]

theorem assembleGo_eq_simpleGo (pg lg : ℚ) (rest : List Segment) :
    ∀ (t : ℕ) (acc : List Char),
      assembleGo pg lg t acc rest = assembleSimpleGo pg lg t acc rest := by
  induction rest with
  | nil => intro t acc; rfl
  | cons seg rest ih =>
    intro t acc
    rw [assembleGo, assembleSimpleGo, assembleStep_eq_simple, ih]

/-- C6: the Constraint Resolver maps `(constraint_type, constraint_value,
totalWords, totalChars)` to the Budget table of the spec — `time` with a
(truthy) value gives `value × 150 / 60` words, otherwise `0.3 × totalWords`;
`chars` gives `value` characters or `0.3 × totalChars`; `words` gives
`value` words or `0.3 × totalWords`; the default/none case gives
`0.3 × totalWords`; and the accumulation unit is characters exactly when
`constraint_type = chars`. -/
theorem resolveTarget_table (v : ℚ) (hv : v ≠ 0) (cv : Option ℚ)
    (wc cl : ℕ) :
    resolveTarget (some CType.time) (some v) wc cl = v * 150 / 60 ∧
    resolveTarget (some CType.time) none wc cl = (wc : ℚ) * (3/10) ∧
    resolveTarget (some CType.chars) (some v) wc cl = v ∧
    resolveTarget (some CType.chars) none wc cl = (cl : ℚ) * (3/10) ∧
    resolveTarget (some CType.words) (some v) wc cl = v ∧
    resolveTarget (some CType.words) none wc cl = (wc : ℚ) * (3/10) ∧
    resolveTarget none cv wc cl = (wc : ℚ) * (3/10) ∧
    (∀ ct : Option CType, targetIsChars ct = true ↔ ct = some CType.chars) := by
  refine ⟨?_, ?_, ?_, ?_, ?_, ?_, ?_, ?_⟩
  · simp [resolveTarget, qTruthy, bne_iff_ne, hv]
  · simp [resolveTarget, qTruthy]
  · simp [resolveTarget, qTruthy, bne_iff_ne, hv]
  · simp [resolveTarget, qTruthy]
  · simp [resolveTarget, qTruthy, bne_iff_ne, hv]
  · simp [resolveTarget, qTruthy]
  · simp [resolveTarget]
  · intro ct
    cases ct with
    | none => simp [targetIsChars]
    | some c => cases c <;> simp [targetIsChars]

theorem resolveTarget_table_witness :
    resolveTarget (some CType.time) (some 60) 10 100 = 60 * 150 / 60 ∧
    resolveTarget (some CType.time) none 10 100 = ((10 : ℕ) : ℚ) * (3/10) ∧
    resolveTarget (some CType.chars) (some 60) 10 100 = 60 ∧
    resolveTarget (some CType.chars) none 10 100 = ((100 : ℕ) : ℚ) * (3/10) ∧
    resolveTarget (some CType.words) (some 60) 10 100 = 60 ∧
    resolveTarget (some CType.words) none 10 100 = ((10 : ℕ) : ℚ) * (3/10) ∧
    resolveTarget none none 10 100 = ((10 : ℕ) : ℚ) * (3/10) ∧
    (∀ ct : Option CType, targetIsChars ct = true ↔ ct = some CType.chars) :=
  resolveTarget_table 60 (by norm_num) none 10 100

/-- C10: a zero `constraint_value` is falsy in the resolver's
`constraint_value ? ... : ...` tests, so all three constraint types fall
back to the 30 percent default Budget rather than a zero Budget. -/
theorem resolveTarget_zero_default (wc cl : ℕ) :
    resolveTarget (some CType.time) (some 0) wc cl = (wc : ℚ) * (3/10) ∧
    resolveTarget (some CType.chars) (some 0) wc cl = (cl : ℚ) * (3/10) ∧
    resolveTarget (some CType.words) (some 0) wc cl = (wc : ℚ) * (3/10) ∧
    (∀ t : CType, resolveTarget (some t) (some 0) wc cl =
      resolveTarget (some t) none wc cl) := by
  refine ⟨by simp [resolveTarget, qTruthy], by simp [resolveTarget, qTruthy],
    by simp [resolveTarget, qTruthy], ?_⟩
  intro t
  cases t <;> simp [resolveTarget, qTruthy]

/-- C7: the Importance Scorer gives the Sentence at index `i` of `N` the
composite score `0.7 × positionScore + 0.3 × lengthScore` with
`positionScore = 1 − i/N` (strictly decreasing in `i`) and
`lengthScore = min 1 (length/100)` (capped at 100 characters, no benefit
beyond), with exactly these constants. -/
theorem compositeScore_spec (ss : List (List Char)) (i : ℕ)
    (hi : i < ss.length) :
    (scoreSentences ss).getD i ⟨0, [], 0⟩ =
      ⟨i, ss.getD i [], positionScore i ss.length * (7/10) +
        lengthScore (ss.getD i []) * (3/10)⟩ ∧
    (∀ j, i < j → j < ss.length →
      positionScore j ss.length < positionScore i ss.length) ∧
    (∀ s : List Char, 100 ≤ s.length → lengthScore s = 1) ∧
    (∀ s : List Char, lengthScore s ≤ 1) := by
  refine ⟨?_, ?_, ?_, fun s => min_le_left _ _⟩
  · have := scoreFrom_getD ss.length ss 0 i hi
    simpa [scoreSentences, compositeScore] using this
  · intro j hij hj
    have hN : (0 : ℚ) < (ss.length : ℚ) := by
      exact_mod_cast Nat.lt_of_le_of_lt (Nat.zero_le j) hj
    have hlt : (i : ℚ) / (ss.length : ℚ) < (j : ℚ) / (ss.length : ℚ) := by
      rw [div_lt_div_iff hN hN]
      exact mul_lt_mul_of_pos_right (by exact_mod_cast hij) hN
    exact sub_lt_sub_left hlt 1
  · intro s hs
    rw [lengthScore, min_eq_left]
    rw [le_div_iff (by norm_num)]
    calc (1 : ℚ) * 100 = 100 := by norm_num
    _ ≤ (s.length : ℚ) := by exact_mod_cast hs

theorem compositeScore_spec_witness :
    ((scoreSentences (extractSentences "Hi. Yo.".toList)).getD 0 ⟨0, [], 0⟩ =
      ⟨0, (extractSentences "Hi. Yo.".toList).getD 0 [],
        positionScore 0 (extractSentences "Hi. Yo.".toList).length * (7/10) +
          lengthScore ((extractSentences "Hi. Yo.".toList).getD 0 []) *
            (3/10)⟩) ∧
    (∀ j, 0 < j → j < (extractSentences "Hi. Yo.".toList).length →
      positionScore j (extractSentences "Hi. Yo.".toList).length <
        positionScore 0 (extractSentences "Hi. Yo.".toList).length) ∧
    (∀ s : List Char, 100 ≤ s.length → lengthScore s = 1) ∧
    (∀ s : List Char, lengthScore s ≤ 1) :=
  compositeScore_spec (extractSentences "Hi. Yo.".toList) 0 (by decide)

/-- C1 counterexample: the empty-string input yields zero Sentences, and
the summarization operation succeeds with the empty excerpt string — it
does not fail with `MalformedInputError` as the spec claims. -/
theorem summaryCore_empty_ok :
    extractSentences ([] : List Char) = [] ∧
    summaryCore [] none none = Except.ok [] := by
  exact ⟨rfl, rfl⟩

/-- C1 amended: for every summarization invocation whose resolved document
yields zero extractable Sentences (in particular the empty-string input),
the operation succeeds and returns the empty excerpt string (the code has
no failure path for this case). -/
theorem summaryCore_no_sentences_ok (cs : List Char) (ct : Option CType)
    (cv : Option ℚ) (h : extractSentences cs = []) :
    summaryCore cs ct cv = Except.ok [] := by
  rw [summaryCore_eq]
  have hsel : selectedOf cs ct cv = [] := by
    unfold selectedOf rankSentences
    rw [h]
    rfl
  rw [hsel, h]
  rfl

theorem summaryCore_no_sentences_ok_witness :
    summaryCore "abc".toList (some CType.words) (some 5) = Except.ok [] :=
  summaryCore_no_sentences_ok "abc".toList (some CType.words) (some 5)
    (by decide)

/-- C9 counterexample: for a source text without any sentence terminator
the extractor emits zero Sentences, so their concatenation does not cover
the source text — the Sentence list is not a partition of every source
text as the spec claims. -/
theorem extractSentences_no_cover :
    extractSentences "abc".toList = [] ∧
    (extractSentences "abc".toList).flatten ≠ "abc".toList := by
  exact ⟨rfl, by decide⟩

/-- C9 amended: the extracted Sentences are pairwise non-overlapping
contiguous substrings appearing in source order; their concatenation
covers the source text except for a leading run of terminator characters
(which cannot start a match of `[^.!?]+[.!?]+`) and a trailing
terminator-free suffix. -/
theorem extractSentences_partition (cs : List Char) :
    ∃ tail, (∀ c ∈ cs.takeWhile isTerm, isTerm c = true) ∧
      (∀ c ∈ tail, isTerm c = false) ∧
      cs = cs.takeWhile isTerm ++ (extractSentences cs).flatten ++ tail := by
  obtain ⟨tail, h1, h2⟩ := extractSentences_decomp cs
  exact ⟨tail, fun c hc => List.mem_takeWhile_imp hc, h1, h2⟩

/-- C5: for a non-empty Segment sequence the Text Assembler emits the
first Segment verbatim with no leading break; every subsequent Segment is
appended after the separator chosen from `gap = time − lastTime` (blank
line above `paragraph_gap`, line break above `line_gap`, single space
otherwise), where `lastTime` is the previous Segment's time; the default
thresholds are `paragraph_gap = 8` and `line_gap = 4`. -/
theorem assemble_gap_rules (pg lg : ℚ) (s0 : Segment) (rest : List Segment) :
    assemble pg lg (s0 :: rest) = s0.text ++ assembleTail pg lg s0.time rest ∧
    (∀ (t : ℕ) (seg : Segment) (rest2 : List Segment),
      assembleTail pg lg t (seg :: rest2) =
        gapSep pg lg ((seg.time : ℤ) - (t : ℤ)) ++ seg.text ++
          assembleTail pg lg seg.time rest2) ∧
    (∀ gap : ℤ,
      ((gap : ℚ) > pg → gapSep pg lg gap = ['\n', '\n']) ∧
      (¬ (gap : ℚ) > pg → (gap : ℚ) > lg → gapSep pg lg gap = ['\n']) ∧
      (¬ (gap : ℚ) > pg → ¬ (gap : ℚ) > lg → gapSep pg lg gap = [' '])) ∧
    (∀ segs : List Segment, formatSegments segs = assemble 8 4 segs) := by
  refine ⟨?_, fun t seg rest2 => rfl, ?_, fun _ => rfl⟩
  · rw [assemble]
    exact assembleGo_eq pg lg rest s0.time s0.text
  · intro gap
    refine ⟨fun h => by simp [gapSep, h], fun h1 h2 => by simp [gapSep, h1, h2],
      fun h1 h2 => by simp [gapSep, h1, h2]⟩

theorem assemble_gap_rules_witness :
    assemble 8 4 [⟨1, "Hello there.".toList⟩, ⟨12, "Next paragraph.".toList⟩] =
      "Hello there.".toList ++
        assembleTail 8 4 1 [⟨12, "Next paragraph.".toList⟩] ∧
    assemble 8 4 [⟨1, "Hello there.".toList⟩, ⟨12, "Next paragraph.".toList⟩] =
      "Hello there.\n\nNext paragraph.".toList :=
  ⟨(assemble_gap_rules 8 4 ⟨1, "Hello there.".toList⟩
      [⟨12, "Next paragraph.".toList⟩]).1, by decide⟩

/-- C8: every punctuation/capitalisation sub-branch of the inline-join
case produces the same single-space join, so the Text Assembler is
extensionally equal to the simplified Assembler whose case 3
unconditionally appends a single space plus the segment text. -/
theorem assemble_subbranch_noop (pg lg : ℚ) (segs : List Segment)
    (acc segText : List Char) :
    joinCase3 acc segText = acc ++ ' ' :: segText ∧
    assemble pg lg segs = assembleSimple pg lg segs := by
  refine ⟨joinCase3_eq acc segText, ?_⟩
  cases segs with
  | nil => rfl
  | cons s0 rest =>
    rw [assemble, assembleSimple]
    exact assembleGo_eq_simpleGo pg lg rest s0.time s0.text

/-- C4: for every Segment sequence and every threshold configuration the
whitespace-delimited words of the assembled text are exactly the words of
the Segment texts, in order — in particular the word multisets agree: the
Assembler never drops, duplicates or alters a word, it only inserts
whitespace between Segments. -/
theorem assemble_token_preservation (pg lg : ℚ) (segs : List Segment) :
    wsTokens (assemble pg lg segs) =
      segs.flatMap (fun seg => wsTokens seg.text) ∧
    (↑(wsTokens (assemble pg lg segs)) : Multiset (List Char)) =
      ↑(segs.flatMap (fun seg => wsTokens seg.text)) := by
  have hmain : wsTokens (assemble pg lg segs) =
      segs.flatMap (fun seg => wsTokens seg.text) := by
    cases segs with
    | nil => rfl
    | cons s0 rest =>
      rw [assemble, assembleGo_eq pg lg rest s0.time s0.text,
        wsTokens_assembleTail pg lg rest s0.time s0.text, List.flatMap_cons]
  exact ⟨hmain, by rw [hmain]⟩

/-- C3 counterexample: on `" Hi. Yo. Hi."` (duplicate sentence texts) the
greedy stage selects all three sentence occurrences in document order, so
a document-order excerpt would be the trimmed single-space join of the
extracted sentence list — but the `findIndex`-by-text Order Restorer maps
both duplicates to index 0 and the operation returns the sentences out of
document order. -/
theorem restoreOrder_duplicate_cex :
    extractSentences " Hi. Yo. Hi.".toList =
      [" Hi.".toList, " Yo.".toList, " Hi.".toList] ∧
    selectedOf " Hi. Yo. Hi.".toList (some CType.words) (some 100) =
      extractSentences " Hi. Yo. Hi.".toList ∧
    jsTrim (joinSep [' '] (extractSentences " Hi. Yo. Hi.".toList)) =
      "Hi.  Yo.  Hi.".toList ∧
    summaryCore " Hi. Yo. Hi.".toList (some CType.words) (some 100) =
      Except.ok "Hi.  Hi.  Yo.".toList ∧
    ("Hi.  Hi.  Yo.".toList : List Char) ≠ "Hi.  Yo.  Hi.".toList := by
  have hdoc : extractSentences " Hi. Yo. Hi.".toList =
      [" Hi.".toList, " Yo.".toList, " Hi.".toList] := by decide
  have hscored : scoreSentences (extractSentences " Hi. Yo. Hi.".toList) =
      [⟨0, " Hi.".toList, compositeScore 0 3 " Hi.".toList⟩,
       ⟨1, " Yo.".toList, compositeScore 1 3 " Yo.".toList⟩,
       ⟨2, " Hi.".toList, compositeScore 2 3 " Hi.".toList⟩] := by
    rw [hdoc]; rfl
  have hlen1 : (" Hi.".toList).length = 4 := rfl
  have hlen2 : (" Yo.".toList).length = 4 := rfl
  have h10 : compositeScore 1 3 " Yo.".toList < compositeScore 0 3 " Hi.".toList := by
    norm_num [compositeScore, positionScore, lengthScore, hlen1, hlen2, min_def]
  have h21 : compositeScore 2 3 " Hi.".toList < compositeScore 1 3 " Yo.".toList := by
    norm_num [compositeScore, positionScore, lengthScore, hlen1, hlen2, min_def]
  have e2 : List.orderedInsert rankRel
      ⟨2, " Hi.".toList, compositeScore 2 3 " Hi.".toList⟩ ([] : List Scored) =
      [⟨2, " Hi.".toList, compositeScore 2 3 " Hi.".toList⟩] := rfl
  have e1 : List.orderedInsert rankRel
      ⟨1, " Yo.".toList, compositeScore 1 3 " Yo.".toList⟩
      [⟨2, " Hi.".toList, compositeScore 2 3 " Hi.".toList⟩] =
      [⟨1, " Yo.".toList, compositeScore 1 3 " Yo.".toList⟩,
       ⟨2, " Hi.".toList, compositeScore 2 3 " Hi.".toList⟩] := by
    rw [List.orderedInsert, if_pos (Or.inl h21)]
  have e0 : List.orderedInsert rankRel
      ⟨0, " Hi.".toList, compositeScore 0 3 " Hi.".toList⟩
      [⟨1, " Yo.".toList, compositeScore 1 3 " Yo.".toList⟩,
       ⟨2, " Hi.".toList, compositeScore 2 3 " Hi.".toList⟩] =
      [⟨0, " Hi.".toList, compositeScore 0 3 " Hi.".toList⟩,
       ⟨1, " Yo.".toList, compositeScore 1 3 " Yo.".toList⟩,
       ⟨2, " Hi.".toList, compositeScore 2 3 " Hi.".toList⟩] := by
    rw [List.orderedInsert, if_pos (Or.inl h10)]
  have hrank : rankSentences (extractSentences " Hi. Yo. Hi.".toList) =
      [⟨0, " Hi.".toList, compositeScore 0 3 " Hi.".toList⟩,
       ⟨1, " Yo.".toList, compositeScore 1 3 " Yo.".toList⟩,
       ⟨2, " Hi.".toList, compositeScore 2 3 " Hi.".toList⟩] := by
    unfold rankSentences
    rw [hscored]
    have hunf : List.insertionSort rankRel
        [⟨0, " Hi.".toList, compositeScore 0 3 " Hi.".toList⟩,
         ⟨1, " Yo.".toList, compositeScore 1 3 " Yo.".toList⟩,
         ⟨2, " Hi.".toList, compositeScore 2 3 " Hi.".toList⟩] =
        List.orderedInsert rankRel
          ⟨0, " Hi.".toList, compositeScore 0 3 " Hi.".toList⟩
          (List.orderedInsert rankRel
            ⟨1, " Yo.".toList, compositeScore 1 3 " Yo.".toList⟩
            (List.orderedInsert rankRel
              ⟨2, " Hi.".toList, compositeScore 2 3 " Hi.".toList⟩ [])) := rfl
    rw [hunf, e2, e1, e0]
  have htarget : resolveTarget (some CType.words) (some 100)
      (jsSplitWSLen " Hi. Yo. Hi.".toList) (" Hi. Yo. Hi.".toList).length =
      100 := by
    simp only [resolveTarget]
    rw [if_neg (by decide), if_neg (by decide), if_pos (by decide),
      if_pos (by decide)]
    rfl
  have hsel : selectedOf " Hi. Yo. Hi.".toList (some CType.words) (some 100) =
      [" Hi.".toList, " Yo.".toList, " Hi.".toList] := by
    unfold selectedOf
    rw [htarget, hrank]
    rw [greedyLoop, if_pos (show
      (((0 + sentenceMeasure (targetIsChars (some CType.words))
        (" Hi.".toList) : ℕ)) : ℚ) ≤ 100 by decide)]
    rw [greedyLoop, if_pos (show
      (((0 + sentenceMeasure (targetIsChars (some CType.words)) (" Hi.".toList)
        + sentenceMeasure (targetIsChars (some CType.words))
        (" Yo.".toList) : ℕ)) : ℚ) ≤ 100 by decide)]
    rw [greedyLoop, if_pos (show
      (((0 + sentenceMeasure (targetIsChars (some CType.words)) (" Hi.".toList)
        + sentenceMeasure (targetIsChars (some CType.words)) (" Yo.".toList)
        + sentenceMeasure (targetIsChars (some CType.words))
        (" Hi.".toList) : ℕ)) : ℚ) ≤ 100 by decide)]
    rfl
  refine ⟨hdoc, by rw [hsel, hdoc], by decide, ?_, by decide⟩
  rw [summaryCore_eq, hsel, hdoc]
  rfl

/-- C3 amended: when the extracted sentence texts are pairwise distinct
(the only case the text-equality `findIndex` lookup supports, see spec
§9 for its acknowledged failure mode under duplicates), the final excerpt
consists of exactly the selected sentences (a permutation) arranged in
ascending original index, and the excerpt string is their single-space
join, trimmed. -/
theorem restoreOrder_document_order (cs : List Char) (ct : Option CType)
    (cv : Option ℚ) (hnd : (extractSentences cs).Nodup) :
    (restoreOrder (extractSentences cs) (selectedOf cs ct cv)).Perm
      (selectedOf cs ct cv) ∧
    (restoreOrder (extractSentences cs) (selectedOf cs ct cv)).Pairwise
      (fun a b => findIndexOf (extractSentences cs) a ≤
        findIndexOf (extractSentences cs) b) ∧
    summaryCore cs ct cv = Except.ok (jsTrim (joinSep [' ']
      (restoreOrder (extractSentences cs) (selectedOf cs ct cv)))) := by
  have hmemss : ∀ x ∈ selectedOf cs ct cv, x ∈ extractSentences cs := by
    intro x hx
    unfold selectedOf at hx
    rcases greedyLoop_mem _ _ _ _ _ hx with h | ⟨it, hit, hxe⟩
    · cases h
    · exact hxe ▸ rankSentences_mem hit
  refine ⟨restoreOrder_perm hmemss, ?_, summaryCore_eq cs ct cv⟩
  unfold restoreOrder
  rw [List.pairwise_map]
  have hsorted : List.Sorted (fun a b => a ≤ b)
      (List.insertionSort (fun a b => a ≤ b)
        ((selectedOf cs ct cv).map (findIndexOf (extractSentences cs)))) :=
    List.sorted_insertionSort _ _
  refine List.Pairwise.imp_of_mem ?_ hsorted
  intro i j hi hj hij
  have hperm := List.perm_insertionSort (fun a b => a ≤ b)
    ((selectedOf cs ct cv).map (findIndexOf (extractSentences cs)))
  have hi2 := hperm.mem_iff.mp hi
  have hj2 := hperm.mem_iff.mp hj
  obtain ⟨si, hsi, hie⟩ := List.mem_map.mp hi2
  obtain ⟨sj, hsj, hje⟩ := List.mem_map.mp hj2
  have hilt : i < (extractSentences cs).length :=
    hie ▸ findIndexOf_lt_length (hmemss si hsi)
  have hjlt : j < (extractSentences cs).length :=
    hje ▸ findIndexOf_lt_length (hmemss sj hsj)
  rw [findIndexOf_getD_of_nodup hnd hilt, findIndexOf_getD_of_nodup hnd hjlt]
  exact hij

theorem restoreOrder_document_order_witness :
    (restoreOrder (extractSentences "Hi. Yo.".toList)
        (selectedOf "Hi. Yo.".toList none none)).Perm
      (selectedOf "Hi. Yo.".toList none none) :=
  (restoreOrder_document_order "Hi. Yo.".toList none none (by decide)).1

/-- The top-ranked scored sentence — the first candidate of the greedy
selection loop. -/
def topRanked (cs : List Char) : Scored :=
  (rankSentences (extractSentences cs)).headD ⟨0, [], 0⟩

/-- C2: greedy selection iterates the Sentences sorted by composite score
descending with ties broken by ascending original index (the ranked list
is sorted under `rankRel` and is a permutation of the scored list);
candidates accumulate only while the accumulated length stays within the
Budget, and a first candidate that alone exceeds the Budget is accepted
anyway.  Consequently, summarizing a 10-sentence document with
`constraint_type = "words"`, `constraint_value = 20` yields a non-empty
excerpt of word count at most 20 — unless the top-ranked sentence alone
exceeds 20 words, in which case the selection is exactly that single
sentence and the excerpt is its (trimmed) text. -/
theorem summary_words20_budget (cs : List Char)
    (h10 : (extractSentences cs).length = 10) :
    List.Sorted rankRel (rankSentences (extractSentences cs)) ∧
    (rankSentences (extractSentences cs)).Perm
      (scoreSentences (extractSentences cs)) ∧
    ∃ s, summaryCore cs (some CType.words) (some 20) = Except.ok s ∧
      s ≠ [] ∧
      (((jsSplitWSLen (topRanked cs).sentence : ℕ) : ℚ) ≤ 20 →
        (wsTokens s).length ≤ 20) ∧
      (¬ (((jsSplitWSLen (topRanked cs).sentence : ℕ) : ℚ) ≤ 20) →
        selectedOf cs (some CType.words) (some 20) =
          [(topRanked cs).sentence] ∧
        s = jsTrim (topRanked cs).sentence) := by
  have hlen : (rankSentences (extractSentences cs)).length = 10 := by
    rw [rankSentences_length]
    exact h10
  obtain ⟨r, rest, hranked⟩ : ∃ r rest,
      rankSentences (extractSentences cs) = r :: rest := by
    cases hh : rankSentences (extractSentences cs) with
    | nil => rw [hh] at hlen; cases hlen
    | cons x t => exact ⟨x, t, rfl⟩
  have htop : topRanked cs = r := by rw [topRanked, hranked]; rfl
  have htarget : resolveTarget (some CType.words) (some 20) (jsSplitWSLen cs)
      cs.length = 20 := by
    simp only [resolveTarget]
    rw [if_neg (by decide), if_neg (by decide), if_pos (by decide),
      if_pos (by decide)]
    rfl
  have hselx : selectedOf cs (some CType.words) (some 20) =
      greedyLoop 20 false (r :: rest) [] 0 := by
    unfold selectedOf
    rw [htarget, hranked]
    rfl
  have hmemss : ∀ x ∈ selectedOf cs (some CType.words) (some 20),
      x ∈ extractSentences cs := by
    intro x hx
    unfold selectedOf at hx
    rcases greedyLoop_mem _ _ _ _ _ hx with h | ⟨it, hit, hxe⟩
    · cases h
    · exact hxe ▸ rankSentences_mem hit
  have hselne : selectedOf cs (some CType.words) (some 20) ≠ [] := by
    unfold selectedOf
    apply greedyLoop_ne_nil
    intro _
    rw [hranked]
    simp
  have hperm : (restoreOrder (extractSentences cs)
      (selectedOf cs (some CType.words) (some 20))).Perm
      (selectedOf cs (some CType.words) (some 20)) := restoreOrder_perm hmemss
  refine ⟨List.sorted_insertionSort rankRel _,
    List.perm_insertionSort rankRel _, _,
    summaryCore_eq cs (some CType.words) (some 20), ?_, ?_, ?_⟩
  · have hrne : restoreOrder (extractSentences cs)
        (selectedOf cs (some CType.words) (some 20)) ≠ [] := by
      intro h0
      have hle := hperm.length_eq
      rw [h0] at hle
      exact hselne (List.length_eq_zero.mp hle.symm)
    obtain ⟨x, hx⟩ := List.exists_mem_of_ne_nil _ hrne
    have hxss : x ∈ extractSentences cs := hmemss x (hperm.mem_iff.mp hx)
    have hwt : wsTokens x ≠ [] := extractSentences_wsTokens_ne_nil hxss
    intro h0
    have hnil : wsTokens (jsTrim (joinSep [' ']
        (restoreOrder (extractSentences cs)
          (selectedOf cs (some CType.words) (some 20))))) = [] := by
      rw [h0]
      rfl
    rw [wsTokens_jsTrim, wsTokens_joinSep, List.flatMap_eq_nil_iff] at hnil
    exact hwt (hnil x hx)
  · intro hfit
    rw [htop] at hfit
    have hcond : (((0 + sentenceMeasure false r.sentence : ℕ)) : ℚ) ≤ 20 := by
      simpa [sentenceMeasure] using hfit
    have hstep : greedyLoop 20 false (r :: rest) ([] : List (List Char)) 0 =
        greedyLoop 20 false rest [r.sentence]
          (0 + sentenceMeasure false r.sentence) := by
      rw [greedyLoop, if_pos hcond]
      rfl
    have hsum := greedyLoop_sum_le 20 false rest [r.sentence]
      (0 + sentenceMeasure false r.sentence) hcond (by simp) (by simp)
    rw [wsTokens_jsTrim, wsTokens_joinSep, List.length_flatMap,
      (hperm.map (List.length ∘ wsTokens)).sum_eq]
    have hle1 : ((selectedOf cs (some CType.words) (some 20)).map
        (List.length ∘ wsTokens)).sum ≤
        ((selectedOf cs (some CType.words) (some 20)).map
          (sentenceMeasure false)).sum :=
      List.sum_le_sum (fun x _ => by
        simpa [sentenceMeasure] using wsTokens_length_le x)
    have hle2 : (((selectedOf cs (some CType.words) (some 20)).map
        (sentenceMeasure false)).sum : ℚ) ≤ 20 := by
      rw [hselx, hstep]
      exact hsum
    have hle2n : ((selectedOf cs (some CType.words) (some 20)).map
        (sentenceMeasure false)).sum ≤ 20 := by exact_mod_cast hle2
    exact le_trans hle1 hle2n
  · intro hbig
    rw [htop] at hbig
    rw [htop]
    have hcond : ¬ (((0 + sentenceMeasure false r.sentence : ℕ)) : ℚ) ≤ 20 := by
      simpa [sentenceMeasure] using hbig
    have hsel1 : selectedOf cs (some CType.words) (some 20) = [r.sentence] := by
      rw [hselx, greedyLoop, if_neg hcond]
      simp
    have hrs : r.sentence ∈ extractSentences cs :=
      rankSentences_mem (hranked ▸ List.mem_cons_self r rest)
    have hrestored : restoreOrder (extractSentences cs) [r.sentence] =
        [r.sentence] := by
      unfold restoreOrder
      rw [show ([r.sentence].map (findIndexOf (extractSentences cs))) =
        [findIndexOf (extractSentences cs) r.sentence] from rfl]
      rw [show List.insertionSort (fun a b => a ≤ b)
        [findIndexOf (extractSentences cs) r.sentence] =
        [findIndexOf (extractSentences cs) r.sentence] from rfl]
      rw [show ([findIndexOf (extractSentences cs) r.sentence].map
        (fun i => (extractSentences cs).getD i [])) =
        [(extractSentences cs).getD
          (findIndexOf (extractSentences cs) r.sentence) []] from rfl]
      rw [getD_findIndexOf hrs]
    refine ⟨hsel1, ?_⟩
    rw [hsel1, hrestored]
    rfl

theorem summary_words20_budget_witness :
    List.Sorted rankRel (rankSentences
      (extractSentences "A. B. C. D. E. F. G. H. I. J.".toList)) ∧
    (rankSentences (extractSentences "A. B. C. D. E. F. G. H. I. J.".toList)).Perm
      (scoreSentences (extractSentences "A. B. C. D. E. F. G. H. I. J.".toList)) ∧
    ∃ s, summaryCore "A. B. C. D. E. F. G. H. I. J.".toList
        (some CType.words) (some 20) = Except.ok s ∧
      s ≠ [] ∧
      (((jsSplitWSLen (topRanked "A. B. C. D. E. F. G. H. I. J.".toList).sentence
          : ℕ) : ℚ) ≤ 20 → (wsTokens s).length ≤ 20) ∧
      (¬ (((jsSplitWSLen (topRanked "A. B. C. D. E. F. G. H. I. J.".toList).sentence
          : ℕ) : ℚ) ≤ 20) →
        selectedOf "A. B. C. D. E. F. G. H. I. J.".toList
          (some CType.words) (some 20) =
          [(topRanked "A. B. C. D. E. F. G. H. I. J.".toList).sentence] ∧
        s = jsTrim (topRanked "A. B. C. D. E. F. G. H. I. J.".toList).sentence) :=
  summary_words20_budget "A. B. C. D. E. F. G. H. I. J.".toList (by decide)
